import Mathlib

/-!
Verification of the in-memory trace storage of the group-by-trace processor
(`processor/groupbytraceprocessor/storage_memory.go`).

The store is a map from the hexadecimal string of a trace identifier to the
ordered list of resource-span batches appended for that trace, together with a
`stopped` flag and a metrics-collection interval.  We embed it at two levels:

* a value-level model (`memoryStorage`), where a Go string is a list of bytes
  and a batch is an opaque value of a type parameter `β`; the deep copies
  performed by the Go code (`pdata.NewResourceSpans(); rs.CopyTo(newRS)`)
  become value copies, which in a purely functional setting are identities;
* an address-level model (`memoryStorageH`) with an explicit heap, where
  batches live in heap cells and the deep copies become fresh allocations;
  this level makes the aliasing/isolation properties of the code expressible.

The self-rescheduling metrics loop `periodicMetrics` is embedded as a
fuel-indexed recursion over a time-indexed schedule of observed store states.
-/

/-- A Go string, viewed as its byte sequence (Go strings compare byte-wise,
and Go map keys of string type compare by byte equality). -/
abbrev GoStr := List Nat

/-- The Go `error` result.  `none` models a `nil` error. -/
abbrev GoErr := String

/-- A trace identifier: a sequence of bytes (`pdata.TraceID`; 16 bytes in
practice, but nothing below depends on the width). -/
abbrev TraceID := List (Fin 256)

/-- The ASCII code of the lowercase hexadecimal digit for `n < 16`,
as produced by Go's `encoding/hex` (`0`–`9` then `a`–`f`). -/
def hexDigitCode (n : Nat) : Nat :=
  if n < 10 then 48 + n else 87 + n

/-- `TraceID.HexString`: the lowercase hexadecimal rendering of the bytes of a
trace identifier, two hex digits per byte (models
`hex.EncodeToString(traceID.Bytes())` from the `pdata` dependency). -/
def hexString : TraceID → GoStr
  | [] => []
  | b :: rest => hexDigitCode (b.val / 16) :: hexDigitCode (b.val % 16) :: hexString rest

namespace GoMap

variable {α : Type}

/-- Reading `m[k]` from a Go map modelled as an association list. -/
def find (c : List (GoStr × α)) (k : GoStr) : Option α :=
  match c with
  | [] => none
  | kv :: rest => if kv.1 = k then some kv.2 else find rest k

/-- Writing `m[k] = v` to a Go map: replace the binding of `k` when present,
otherwise add a binding for `k`. -/
def set (c : List (GoStr × α)) (k : GoStr) (v : α) : List (GoStr × α) :=
  if (find c k).isSome then
    c.map fun kv => if kv.1 = k then (k, v) else kv
  else
    c ++ [(k, v)]

/-- Go's built-in `delete(m, k)`: remove the binding of `k` (a no-op when `k`
is absent). -/
def erase (c : List (GoStr × α)) (k : GoStr) : List (GoStr × α) :=
  c.filter fun kv => decide (kv.1 ≠ k)

end GoMap

/-- The value-level model of `memoryStorage`.  The mutexes of the Go struct
guard the fields against concurrent access and have no sequential content, so
they are not part of the state; `β` is the opaque type of one
`pdata.ResourceSpans` batch. -/
structure memoryStorage (β : Type) where
  content : List (GoStr × List β)
  stopped : Bool
  metricsCollectionInterval : Nat

/-- `newMemoryStorage()`: empty map, not stopped, interval of one time unit
(`time.Second`). -/
def newMemoryStorage (β : Type) : memoryStorage β :=
  { content := [], stopped := false, metricsCollectionInterval := 1 }

variable {β : Type}

/-- `createOrAppend`: ensure an entry exists for the hex key, then append a
deep copy of the batch; always returns a `nil` error.  At the value level the
copy `pdata.NewResourceSpans(); rs.CopyTo(newRS)` is the value itself. -/
def memoryStorage.createOrAppend (st : memoryStorage β) (traceID : TraceID) (rs : β) :
    memoryStorage β × Option GoErr :=
  let sTraceID := hexString traceID
  let content₁ :=
    match GoMap.find st.content sTraceID with
    | none => GoMap.set st.content sTraceID []
    | some _ => st.content
  let newRS := rs
  ({ st with content := GoMap.set content₁ sTraceID ((GoMap.find content₁ sTraceID).getD [] ++ [newRS]) },
   none)

/-- The copying loop of `get`/`delete` over a present entry, at the value
level: `var result []pdata.ResourceSpans` starts as a `nil` slice and stays
`nil` exactly when the entry is empty. -/
def copyAll : List β → Option (List β)
  | [] => none
  | rs :: rest => some (rs :: rest)

/-- `get`: `nil, nil` when the key is absent; otherwise a slice of deep copies
of the stored batches, in order, and a `nil` error. -/
def memoryStorage.get (st : memoryStorage β) (traceID : TraceID) :
    Option (List β) × Option GoErr :=
  match GoMap.find st.content (hexString traceID) with
  | none => (none, none)
  | some rss => (copyAll rss, none)

/-- `delete`: read the entry (the zero-value `nil` slice when absent), copy
every batch, remove the key, return the copies and a `nil` error. -/
def memoryStorage.delete (st : memoryStorage β) (traceID : TraceID) :
    List β × memoryStorage β × Option GoErr :=
  let sTraceID := hexString traceID
  let rss := (GoMap.find st.content sTraceID).getD []
  (rss, { st with content := GoMap.erase st.content sTraceID }, none)

/-- `start`: launches the metrics goroutine (modelled separately by
`periodicMetricsRun`) and returns a `nil` error; the store state is
untouched. -/
def memoryStorage.start (st : memoryStorage β) : memoryStorage β × Option GoErr :=
  (st, none)

/-- `shutdown`: set the stopped flag under its lock; returns a `nil` error. -/
def memoryStorage.shutdown (st : memoryStorage β) : memoryStorage β × Option GoErr :=
  ({ st with stopped := true }, none)

/-- `count`: the number of keys of the map (`len(st.content)`). -/
def memoryStorage.count (st : memoryStorage β) : Nat :=
  st.content.length

/-- The `periodicMetrics` self-rescheduling loop.  `states u` is the shared
store as observed at time `u`; each activation at time `t` records one sample
`(t, count)`, then stops if the stopped flag is observed, else re-arms itself
`metricsCollectionInterval` later.  `fuel` bounds the number of activations so
the recursion is structural; the emitted samples are returned in order. -/
def periodicMetricsRun (states : Nat → memoryStorage β) : Nat → Nat → List (Nat × Nat)
  | 0, _ => []
  | fuel + 1, t =>
    let st := states t
    let sample := (t, st.count)
    if st.stopped then [sample]
    else sample :: periodicMetricsRun states fuel (t + st.metricsCollectionInterval)

/-- The operations an external coordinator may issue against one store. -/
inductive Op (β : Type) where
  | append (traceID : TraceID) (rs : β)
  | get (traceID : TraceID)
  | delete (traceID : TraceID)
  | count

/-- One coordinator call, as a state transformer.  `get` and `count` read
under the (shared) lock and write nothing, so they leave the state as is. -/
def applyOp (st : memoryStorage β) : Op β → memoryStorage β
  | .append traceID rs => (st.createOrAppend traceID rs).1
  | .get _ => st
  | .delete traceID => (st.delete traceID).2.1
  | .count => st

/-- Running a sequence of coordinator calls from a given state. -/
def runFrom (st : memoryStorage β) (ops : List (Op β)) : memoryStorage β :=
  ops.foldl applyOp st

/-- Running a sequence of coordinator calls from a freshly constructed
store. -/
def runOps (ops : List (Op β)) : memoryStorage β :=
  runFrom (newMemoryStorage β) ops

/-- Whether an operation is an `append` under the map key `k`. -/
def Op.isAppendTo : Op β → GoStr → Bool
  | .append traceID _, k => decide (hexString traceID = k)
  | _, _ => false

/-- Whether an operation is a `delete` under the map key `k`. -/
def Op.isDeleteOf : Op β → GoStr → Bool
  | .delete traceID, k => decide (hexString traceID = k)
  | _, _ => false

/-- The batches appended under the map key `k`, in call order. -/
def appendsTo (ops : List (Op β)) (k : GoStr) : List β :=
  ops.filterMap fun op =>
    match op with
    | .append traceID rs => if hexString traceID = k then some rs else none
    | _ => none

/-- The set of map keys that some `append` of the call sequence targets. -/
def appendKeys : List (Op β) → Finset GoStr
  | [] => ∅
  | .append traceID _ :: rest => insert (hexString traceID) (appendKeys rest)
  | _ :: rest => appendKeys rest

/-- Stated from the spec: key `k` has had at least one `append` since the last
`delete` of `k` — among the calls issued after the last `delete` of `k` (all
of them when `k` was never deleted), some call is an `append` to `k`. -/
def appendedSinceLastDelete (ops : List (Op β)) (k : GoStr) : Bool :=
  (ops.reverse.takeWhile fun op => ! op.isDeleteOf k).any fun op => op.isAppendTo k

/-!
The address-level model.  A `Heap β` holds the `pdata.ResourceSpans` objects;
a batch is referred to by the index of its cell.  `pdata.NewResourceSpans()`
followed by `rs.CopyTo(newRS)` becomes `Heap.alloc` of the value read at `rs`,
and a caller mutating a batch in place becomes `Heap.write`.
-/

/-- The heap of resource-span objects; cell `a` of `cells` is the object at
address `a`. -/
structure Heap (β : Type) where
  cells : List β

/-- Allocate a fresh object holding `v`; returns the new heap and the fresh
address. -/
def Heap.alloc (h : Heap β) (v : β) : Heap β × Nat :=
  (⟨h.cells ++ [v]⟩, h.cells.length)

/-- Read the object at address `a` (default value for a dangling address). -/
def Heap.read [Inhabited β] (h : Heap β) (a : Nat) : β :=
  h.cells.getD a default

/-- Overwrite the object at address `a` in place (a caller mutating a batch). -/
def Heap.write (h : Heap β) (a : Nat) (v : β) : Heap β :=
  ⟨h.cells.set a v⟩

/-- The address-level model of `memoryStorage`: the map stores addresses of
heap cells owned by the store. -/
structure memoryStorageH where
  content : List (GoStr × List Nat)
  stopped : Bool
  metricsCollectionInterval : Nat

/-- The copying loop of `get`/`delete` at the address level: allocate a fresh
copy of each stored batch, returning the fresh addresses in order. -/
def copyOut [Inhabited β] : List Nat → Heap β → List Nat × Heap β
  | [], h => ([], h)
  | a :: rest, h =>
    let (h₁, a') := h.alloc (h.read a)
    let (as, h₂) := copyOut rest h₁
    (a' :: as, h₂)

/-- `createOrAppend` at the address level: the stored batch is a freshly
allocated deep copy of the caller's batch `rs`. -/
def memoryStorageH.createOrAppend [Inhabited β] (st : memoryStorageH) (h : Heap β)
    (traceID : TraceID) (rs : Nat) : memoryStorageH × Heap β × Option GoErr :=
  let sTraceID := hexString traceID
  let content₁ :=
    match GoMap.find st.content sTraceID with
    | none => GoMap.set st.content sTraceID ([] : List Nat)
    | some _ => st.content
  let (h₁, newRS) := h.alloc (h.read rs)
  ({ st with content := GoMap.set content₁ sTraceID ((GoMap.find content₁ sTraceID).getD [] ++ [newRS]) },
   h₁, none)

/-- `get` at the address level: the result (when the entry is present and
nonempty) is a list of addresses of freshly allocated copies; the store value
returned is the one the method leaves behind. -/
def memoryStorageH.get [Inhabited β] (st : memoryStorageH) (h : Heap β) (traceID : TraceID) :
    Option (List Nat) × memoryStorageH × Heap β :=
  match GoMap.find st.content (hexString traceID) with
  | none => (none, st, h)
  | some rss =>
    let (as, h₁) := copyOut rss h
    (copyAll as, st, h₁)

/-- `delete` at the address level: copy out the entry (empty when absent),
then remove the key. -/
def memoryStorageH.delete [Inhabited β] (st : memoryStorageH) (h : Heap β) (traceID : TraceID) :
    List Nat × memoryStorageH × Heap β :=
  let sTraceID := hexString traceID
  let rss := (GoMap.find st.content sTraceID).getD []
  let (as, h₁) := copyOut rss h
  (as, { st with content := GoMap.erase st.content sTraceID }, h₁)

/-- `count` at the address level. -/
def memoryStorageH.count (st : memoryStorageH) : Nat :=
  st.content.length

/-- Every address stored in the map refers to an allocated heap cell. -/
def validStore (st : memoryStorageH) (h : Heap β) : Prop :=
  ∀ kv ∈ st.content, ∀ a ∈ kv.2, a < h.cells.length

/-- All addresses stored in the map. -/
def storedAddrs (st : memoryStorageH) : List Nat :=
  st.content.flatMap fun kv => kv.2

/-- The batch values of the entry of key `k`, as read from the heap. -/
def entryValues [Inhabited β] (st : memoryStorageH) (h : Heap β) (k : GoStr) : Option (List β) :=
  (GoMap.find st.content k).map fun as => as.map h.read

/-- What a caller of `get` observes: the values of the batches it receives,
read from the heap `get` leaves behind. -/
def getValuesObs [Inhabited β] (st : memoryStorageH) (h : Heap β) (traceID : TraceID) :
    Option (List β) :=
  match st.get h traceID with
  | (none, _, _) => none
  | (some as, _, h₁) => some (as.map h₁.read)

/-- What a caller of `delete` observes: the values of the batches it receives,
read from the heap `delete` leaves behind. -/
def deleteValuesObs [Inhabited β] (st : memoryStorageH) (h : Heap β) (traceID : TraceID) :
    List β :=
  let (as, _, h₁) := st.delete h traceID
  as.map h₁.read

/-- The evolution of the key set of the map under one coordinator call
(an abstraction of `applyOp` used in the counting argument). -/
def liveStep (l : List GoStr) : Op β → List GoStr
  | .append traceID _ =>
    if hexString traceID ∈ l then l else l ++ [hexString traceID]
  | .delete traceID => l.filter fun k => decide (k ≠ hexString traceID)
  | _ => l

/-!
## Lemmas about the Go map model
-/

namespace GoMap

variable {α : Type}

theorem find_map_upd_of_isSome {c : List (GoStr × α)} {k : GoStr} (v : α)
    (h : (find c k).isSome) :
    find (c.map fun kv => if kv.1 = k then (k, v) else kv) k = some v := by
  induction c with
  | nil => simp [find] at h
  | cons kv rest ih =>
    by_cases hk : kv.1 = k
    · simp [find, hk]
    · simp only [find, if_neg hk] at h
      simpa [find, hk] using ih h

theorem find_append_single_of_none {c : List (GoStr × α)} {k : GoStr} (v : α)
    (h : find c k = none) :
    find (c ++ [(k, v)]) k = some v := by
  induction c with
  | nil => simp [find]
  | cons kv rest ih =>
    by_cases hk : kv.1 = k
    · simp [find, hk] at h
    · simp only [find, if_neg hk] at h
      simpa [find, hk] using ih h

theorem find_set_self (c : List (GoStr × α)) (k : GoStr) (v : α) :
    find (set c k v) k = some v := by
  unfold set
  by_cases h : (find c k).isSome
  · rw [if_pos h]
    exact find_map_upd_of_isSome v h
  · rw [if_neg h]
    exact find_append_single_of_none v (Option.not_isSome_iff_eq_none.mp h)

theorem find_map_upd_ne (c : List (GoStr × α)) (k k' : GoStr) (v : α) (h : k' ≠ k) :
    find (c.map fun kv => if kv.1 = k then (k, v) else kv) k' = find c k' := by
  have h1 : ¬k = k' := fun hh => h hh.symm
  induction c with
  | nil => rfl
  | cons kv rest ih =>
    by_cases hk : kv.1 = k
    · have h2 : ¬kv.1 = k' := by rw [hk]; exact h1
      simp [find, hk, h, h1, h2, ih]
    · by_cases hk' : kv.1 = k'
      · simp [find, hk, hk', h, h1]
      · simp [find, hk, hk', ih]

theorem find_append_single_ne (c : List (GoStr × α)) (k k' : GoStr) (v : α) (h : k' ≠ k) :
    find (c ++ [(k, v)]) k' = find c k' := by
  have h1 : ¬k = k' := fun hh => h hh.symm
  induction c with
  | nil => simp [find, h1]
  | cons kv rest ih =>
    by_cases hk' : kv.1 = k'
    · simp [find, hk']
    · simp [find, hk', ih]

theorem find_set_ne (c : List (GoStr × α)) (k k' : GoStr) (v : α) (h : k' ≠ k) :
    find (set c k v) k' = find c k' := by
  unfold set
  by_cases hs : (find c k).isSome
  · rw [if_pos hs]
    exact find_map_upd_ne c k k' v h
  · rw [if_neg hs]
    exact find_append_single_ne c k k' v h

theorem find_erase_self (c : List (GoStr × α)) (k : GoStr) :
    find (erase c k) k = none := by
  induction c with
  | nil => rfl
  | cons kv rest ih =>
    by_cases hk : kv.1 = k
    · simpa [erase, List.filter_cons, hk] using ih
    · simpa [erase, List.filter_cons, hk, find] using ih

theorem find_erase_ne (c : List (GoStr × α)) (k k' : GoStr) (h : k' ≠ k) :
    find (erase c k) k' = find c k' := by
  have h1 : ¬k = k' := fun hh => h hh.symm
  induction c with
  | nil => rfl
  | cons kv rest ih =>
    by_cases hk : kv.1 = k
    · have h2 : ¬kv.1 = k' := by rw [hk]; exact h1
      simpa [erase, List.filter_cons, hk, find, h2, h1] using ih
    · by_cases hk' : kv.1 = k'
      · simp [erase, List.filter_cons, hk, find, hk', h, h1]
      · simpa [erase, List.filter_cons, hk, find, hk', h, h1] using ih

theorem erase_of_find_none {c : List (GoStr × α)} {k : GoStr}
    (h : find c k = none) : erase c k = c := by
  induction c with
  | nil => rfl
  | cons kv rest ih =>
    by_cases hk : kv.1 = k
    · simp [find, hk] at h
    · simp only [find, if_neg hk] at h
      have hrest := ih h
      simp only [erase] at hrest ⊢
      rw [List.filter_cons, if_pos (by simp [hk]), hrest]

theorem map_fst_upd (c : List (GoStr × α)) (k : GoStr) (v : α) :
    (c.map fun kv => if kv.1 = k then (k, v) else kv).map Prod.fst = c.map Prod.fst := by
  induction c with
  | nil => rfl
  | cons kv rest ih =>
    by_cases hk : kv.1 = k
    · simp [hk, ih]
    · simp [hk, ih]

theorem map_fst_set (c : List (GoStr × α)) (k : GoStr) (v : α) :
    (set c k v).map Prod.fst
      = if (find c k).isSome then c.map Prod.fst else c.map Prod.fst ++ [k] := by
  unfold set
  by_cases hs : (find c k).isSome
  · rw [if_pos hs, if_pos hs]
    exact map_fst_upd c k v
  · rw [if_neg hs, if_neg hs]
    simp

theorem map_fst_erase (c : List (GoStr × α)) (k : GoStr) :
    (erase c k).map Prod.fst = (c.map Prod.fst).filter fun k' => decide (k' ≠ k) := by
  induction c with
  | nil => rfl
  | cons kv rest ih =>
    simp only [erase] at ih ⊢
    by_cases hk : kv.1 = k
    · rw [List.filter_cons, if_neg (by simp [hk]), List.map_cons, List.filter_cons,
        if_neg (by simp [hk])]
      exact ih
    · rw [List.filter_cons, if_pos (by simp [hk]), List.map_cons, List.map_cons,
        List.filter_cons, if_pos (by simp [hk]), ih]

theorem find_isSome_iff_mem (c : List (GoStr × α)) (k : GoStr) :
    (find c k).isSome ↔ k ∈ c.map Prod.fst := by
  induction c with
  | nil => simp [find]
  | cons kv rest ih =>
    by_cases hk : kv.1 = k
    · simp [find, hk]
    · have hk' : ¬k = kv.1 := fun hh => hk hh.symm
      simp [find, hk, hk', ih]

theorem mem_set {c : List (GoStr × α)} {k : GoStr} {v : α} {kv' : GoStr × α}
    (h : kv' ∈ set c k v) : kv' ∈ c ∨ kv' = (k, v) := by
  unfold set at h
  by_cases hs : (find c k).isSome
  · rw [if_pos hs] at h
    obtain ⟨kv, hmem, hupd⟩ := List.mem_map.mp h
    by_cases hk : kv.1 = k
    · right; rw [← hupd]; simp [hk]
    · left; rw [← hupd]; simpa [hk] using hmem
  · rw [if_neg hs] at h
    rcases List.mem_append.mp h with h1 | h1
    · exact Or.inl h1
    · exact Or.inr (by simpa using h1)

theorem mem_of_mem_erase {c : List (GoStr × α)} {k : GoStr} {kv' : GoStr × α}
    (h : kv' ∈ erase c k) : kv' ∈ c :=
  List.mem_of_mem_filter h

theorem find_some_mem {c : List (GoStr × α)} {k : GoStr} {v : α}
    (h : find c k = some v) : (k, v) ∈ c := by
  induction c with
  | nil => simp [find] at h
  | cons kv rest ih =>
    by_cases hk : kv.1 = k
    · simp only [find, if_pos hk] at h
      have h2 : kv.2 = v := by injection h
      have h3 : kv = (k, v) := Prod.ext hk h2
      rw [← h3]
      exact List.mem_cons_self _ _
    · simp only [find, if_neg hk] at h
      exact List.mem_cons_of_mem _ (ih h)

end GoMap

/-!
## Lemmas about the value-level operations
-/

theorem copyAll_of_ne_nil {l : List β} (h : l ≠ []) : copyAll l = some l := by
  cases l with
  | nil => exact absurd rfl h
  | cons a rest => rfl

theorem find_createOrAppend_self (st : memoryStorage β) (traceID : TraceID) (rs : β) :
    GoMap.find ((st.createOrAppend traceID rs).1).content (hexString traceID)
      = some ((GoMap.find st.content (hexString traceID)).getD [] ++ [rs]) := by
  unfold memoryStorage.createOrAppend
  cases hfind : GoMap.find st.content (hexString traceID) with
  | none =>
    simp only [hfind]
    rw [GoMap.find_set_self, GoMap.find_set_self]
    rfl
  | some old =>
    simp only [hfind]
    rw [GoMap.find_set_self]

theorem find_createOrAppend_ne (st : memoryStorage β) (traceID : TraceID) (rs : β)
    (k : GoStr) (h : k ≠ hexString traceID) :
    GoMap.find ((st.createOrAppend traceID rs).1).content k = GoMap.find st.content k := by
  unfold memoryStorage.createOrAppend
  cases hfind : GoMap.find st.content (hexString traceID) with
  | none =>
    simp only [hfind]
    rw [GoMap.find_set_ne _ _ _ _ h, GoMap.find_set_ne _ _ _ _ h]
  | some old =>
    simp only [hfind]
    rw [GoMap.find_set_ne _ _ _ _ h]

theorem find_delete_ne (st : memoryStorage β) (traceID : TraceID)
    (k : GoStr) (h : k ≠ hexString traceID) :
    GoMap.find ((st.delete traceID).2.1).content k = GoMap.find st.content k := by
  unfold memoryStorage.delete
  exact GoMap.find_erase_ne _ _ _ h

theorem find_delete_self (st : memoryStorage β) (traceID : TraceID) :
    GoMap.find ((st.delete traceID).2.1).content (hexString traceID) = none := by
  unfold memoryStorage.delete
  exact GoMap.find_erase_self _ _

theorem runFrom_cons (st : memoryStorage β) (op : Op β) (ops : List (Op β)) :
    runFrom st (op :: ops) = runFrom (applyOp st op) ops := rfl

theorem runFrom_append (st : memoryStorage β) (ops₁ ops₂ : List (Op β)) :
    runFrom st (ops₁ ++ ops₂) = runFrom (runFrom st ops₁) ops₂ :=
  List.foldl_append _ _ _ _

theorem appendsTo_cons_append_eq (traceID : TraceID) (rs : β) (ops : List (Op β)) :
    appendsTo (Op.append traceID rs :: ops) (hexString traceID)
      = rs :: appendsTo ops (hexString traceID) := by
  simp [appendsTo]

/-- The accumulated entry of key `k` after running calls that never delete
`k`: the prior entry (empty when the key was absent) extended by the batches
appended to `k`, in call order. -/
theorem find_runFrom_no_delete (ops : List (Op β)) (st : memoryStorage β) (k : GoStr)
    (hnd : ∀ op ∈ ops, op.isDeleteOf k = false)
    (hst : GoMap.find st.content k ≠ none ∨ appendsTo ops k ≠ []) :
    GoMap.find (runFrom st ops).content k
      = some ((GoMap.find st.content k).getD [] ++ appendsTo ops k) := by
  induction ops generalizing st with
  | nil =>
    rcases hst with hs | hs
    · cases hfind : GoMap.find st.content k with
      | none => exact absurd hfind hs
      | some old => simp [runFrom, appendsTo, hfind]
    · exact absurd rfl hs
  | cons op rest ih =>
    have hndr : ∀ op' ∈ rest, op'.isDeleteOf k = false := fun op' h' =>
      hnd op' (List.mem_cons_of_mem _ h')
    rw [runFrom_cons]
    cases op with
    | append traceID rs =>
      simp only [applyOp]
      by_cases hkey : hexString traceID = k
      · subst hkey
        have hself := find_createOrAppend_self st traceID rs
        have hrec := ih ((st.createOrAppend traceID rs).1) hndr
          (Or.inl (by rw [hself]; exact fun hh => Option.noConfusion hh))
        rw [hrec, hself, appendsTo_cons_append_eq]
        simp
      · have hne := find_createOrAppend_ne st traceID rs k (fun hh => hkey hh.symm)
        have happ : appendsTo (Op.append traceID rs :: rest) k = appendsTo rest k := by
          simp [appendsTo, hkey]
        rw [happ]
        have hst' : GoMap.find ((st.createOrAppend traceID rs).1).content k ≠ none
            ∨ appendsTo rest k ≠ [] := by
          rcases hst with hs | hs
          · exact Or.inl (by rw [hne]; exact hs)
          · exact Or.inr (by rwa [happ] at hs)
        rw [ih _ hndr hst', hne]
    | get traceID =>
      simp only [applyOp]
      have happ : appendsTo (Op.get (β := β) traceID :: rest) k = appendsTo rest k := by
        simp [appendsTo]
      rw [happ]
      refine ih st hndr ?_
      rcases hst with hs | hs
      · exact Or.inl hs
      · exact Or.inr (by rwa [happ] at hs)
    | count =>
      simp only [applyOp]
      have happ : appendsTo (Op.count (β := β) :: rest) k = appendsTo rest k := by
        simp [appendsTo]
      rw [happ]
      refine ih st hndr ?_
      rcases hst with hs | hs
      · exact Or.inl hs
      · exact Or.inr (by rwa [happ] at hs)
    | delete traceID =>
      simp only [applyOp]
      have hkey : hexString traceID ≠ k := by
        have := hnd (Op.delete traceID) (List.mem_cons_self _ _)
        simpa [Op.isDeleteOf] using this
      have hne := find_delete_ne st traceID k (fun hh => hkey hh.symm)
      have happ : appendsTo (Op.delete (β := β) traceID :: rest) k = appendsTo rest k := by
        simp [appendsTo]
      rw [happ]
      have hst' : GoMap.find ((st.delete traceID).2.1).content k ≠ none
          ∨ appendsTo rest k ≠ [] := by
        rcases hst with hs | hs
        · exact Or.inl (by rw [hne]; exact hs)
        · exact Or.inr (by rwa [happ] at hs)
      rw [ih _ hndr hst', hne]

/-!
## Injectivity of the hexadecimal key encoding
-/

theorem hexDigitCode_inj {a b : Nat} (ha : a < 16) (hb : b < 16)
    (h : hexDigitCode a = hexDigitCode b) : a = b := by
  unfold hexDigitCode at h
  split_ifs at h <;> omega

theorem hexString_inj : ∀ t1 t2 : TraceID, hexString t1 = hexString t2 → t1 = t2 := by
  intro t1
  induction t1 with
  | nil =>
    intro t2 h
    cases t2 with
    | nil => rfl
    | cons b rest => simp [hexString] at h
  | cons a rest ih =>
    intro t2 h
    cases t2 with
    | nil => simp [hexString] at h
    | cons b rest2 =>
      simp only [hexString, List.cons.injEq] at h
      obtain ⟨h1, h2, h3⟩ := h
      have hab : a.val = b.val := by
        have ha := a.isLt
        have hb := b.isLt
        have hd := hexDigitCode_inj (by omega) (by omega) h1
        have hm := hexDigitCode_inj (by omega) (by omega) h2
        omega
      rw [Fin.ext hab, ih rest2 h3]

/-!
## The claims
-/

/-- C1: for every trace key and batches `b1, …, bn` appended in that order via
`append` — with no intervening `delete` of that key, and arbitrary
interleaved calls on other keys — `get` returns the sequence
`[b1, …, bn]` in that exact order (and a `nil` error). -/
theorem append_then_get_in_order (ops : List (Op β)) (traceID : TraceID)
    (hnd : ∀ op ∈ ops, op.isDeleteOf (hexString traceID) = false)
    (hne : appendsTo ops (hexString traceID) ≠ []) :
    (runOps ops).get traceID = (some (appendsTo ops (hexString traceID)), none) := by
  have hfind := find_runFrom_no_delete ops (newMemoryStorage β) (hexString traceID)
    hnd (Or.inr hne)
  have h0 : GoMap.find (newMemoryStorage β).content (hexString traceID) = none := rfl
  rw [h0] at hfind
  unfold memoryStorage.get runOps
  rw [hfind]
  simp only [Option.getD_none, List.nil_append]
  rw [copyAll_of_ne_nil hne]

/-- Witness for C1: appending batches 1 and 3 to trace `aa` with an append to
trace `bb` in between; `get` on `aa` returns `[1, 3]`. -/
theorem append_then_get_in_order_witness :
    (runOps [Op.append [(170 : Fin 256)] (1 : Nat), Op.append [(187 : Fin 256)] 2,
             Op.append [(170 : Fin 256)] 3]).get [(170 : Fin 256)]
      = (some [1, 3], none) := by
  have h := append_then_get_in_order
    [Op.append [(170 : Fin 256)] (1 : Nat), Op.append [(187 : Fin 256)] 2,
     Op.append [(170 : Fin 256)] 3] [(170 : Fin 256)] (by decide) (by decide)
  rw [h]
  rfl

/-- C2: after `delete(k)` an immediate `get(k)` returns the absent result
(`nil, nil`); and a `delete` on an absent key returns the empty sequence and
leaves the whole store unchanged. -/
theorem delete_removes_key (st : memoryStorage β) (traceID : TraceID) :
    ((st.delete traceID).2.1).get traceID = (none, none)
    ∧ (GoMap.find st.content (hexString traceID) = none →
        (st.delete traceID).1 = [] ∧ (st.delete traceID).2.1 = st) := by
  constructor
  · unfold memoryStorage.get
    rw [find_delete_self]
  · intro habs
    constructor
    · show ((GoMap.find st.content (hexString traceID)).getD []) = []
      rw [habs]
      rfl
    · show ({ st with content := GoMap.erase st.content (hexString traceID) } : memoryStorage β) = st
      rw [GoMap.erase_of_find_none habs]

/-- Witness for C2 at a concrete store holding only trace `bb`: deleting the
absent trace `aa` returns `[]` and changes nothing, and `get` after the
`delete` is absent. -/
theorem delete_removes_key_witness :
    (((runOps [Op.append [(187 : Fin 256)] (7 : Nat)]).delete [(170 : Fin 256)]).2.1).get
        [(170 : Fin 256)] = (none, none)
    ∧ ((runOps [Op.append [(187 : Fin 256)] (7 : Nat)]).delete [(170 : Fin 256)]).1 = []
    ∧ ((runOps [Op.append [(187 : Fin 256)] (7 : Nat)]).delete [(170 : Fin 256)]).2.1
        = runOps [Op.append [(187 : Fin 256)] (7 : Nat)] := by
  have h := delete_removes_key (runOps [Op.append [(187 : Fin 256)] (7 : Nat)])
    [(170 : Fin 256)]
  exact ⟨h.1, (h.2 (by decide)).1, (h.2 (by decide)).2⟩

/-- C3: `get(k)` on a key never appended — or on any run whose last call is a
`delete` of `k` — returns the explicit absent result `none`, which differs
from the empty sequence `some []`, with a `nil` (non-)error. -/
theorem get_absent_is_explicit (ops : List (Op β)) (traceID : TraceID)
    (h : (∀ op ∈ ops, op.isAppendTo (hexString traceID) = false)
         ∨ ∃ ops', ops = ops' ++ [Op.delete traceID]) :
    ((runOps ops).get traceID).1 = none
    ∧ ((runOps ops).get traceID).1 ≠ some []
    ∧ ((runOps ops).get traceID).2 = none := by
  have habs : GoMap.find (runOps ops).content (hexString traceID) = none := by
    rcases h with hnoapp | ⟨ops', rfl⟩
    · have : ∀ (ops₀ : List (Op β)) (st : memoryStorage β),
          GoMap.find st.content (hexString traceID) = none →
          (∀ op ∈ ops₀, op.isAppendTo (hexString traceID) = false) →
          GoMap.find (runFrom st ops₀).content (hexString traceID) = none := by
        intro ops₀
        induction ops₀ with
        | nil => intro st h0 _; exact h0
        | cons op rest ih =>
          intro st h0 hno
          have hnor : ∀ op' ∈ rest, op'.isAppendTo (hexString traceID) = false :=
            fun op' h' => hno op' (List.mem_cons_of_mem _ h')
          rw [runFrom_cons]
          cases op with
          | append tid' rs =>
            have hkey : hexString tid' ≠ hexString traceID := by
              have := hno (Op.append tid' rs) (List.mem_cons_self _ _)
              simpa [Op.isAppendTo] using this
            refine ih _ ?_ hnor
            simp only [applyOp]
            rw [find_createOrAppend_ne _ _ _ _ (fun hh => hkey hh.symm)]
            exact h0
          | get tid' => exact ih _ h0 hnor
          | count => exact ih _ h0 hnor
          | delete tid' =>
            refine ih _ ?_ hnor
            simp only [applyOp]
            by_cases hkey : hexString traceID = hexString tid'
            · rw [hkey, find_delete_self]
            · rw [find_delete_ne _ _ _ hkey]
              exact h0
      exact this ops (newMemoryStorage β) rfl hnoapp
    · unfold runOps
      rw [runFrom_append]
      show GoMap.find ((runFrom _ ops').delete traceID).2.1.content (hexString traceID) = none
      exact find_delete_self _ _
  unfold memoryStorage.get
  rw [habs]
  exact ⟨rfl, by simp, rfl⟩

/-- Witness for C3: a run that only appends to trace `aa` leaves `get` on
trace `bb` absent, not empty, not failed. -/
theorem get_absent_is_explicit_witness :
    ((runOps [Op.append [(170 : Fin 256)] (1 : Nat)]).get [(187 : Fin 256)]).1 = none
    ∧ ((runOps [Op.append [(170 : Fin 256)] (1 : Nat)]).get [(187 : Fin 256)]).1 ≠ some []
    ∧ ((runOps [Op.append [(170 : Fin 256)] (1 : Nat)]).get [(187 : Fin 256)]).2 = none := by
  exact get_absent_is_explicit [Op.append [(170 : Fin 256)] (1 : Nat)] [(187 : Fin 256)]
    (Or.inl (by decide))

/-- C6: in the in-memory variant, `append` (`createOrAppend`), `start` and
`shutdown` return the success result (`nil` error) for every input and store
state; the failure channel is never exercised. -/
theorem in_memory_never_fails (st : memoryStorage β) (traceID : TraceID) (rs : β) :
    (st.createOrAppend traceID rs).2 = none
    ∧ st.start.2 = none
    ∧ st.shutdown.2 = none :=
  ⟨rfl, rfl, rfl⟩

/-!
## The key set of the map along a run (claim C4)
-/

theorem applyOp_keys (st : memoryStorage β) (op : Op β) :
    (applyOp st op).content.map Prod.fst = liveStep (st.content.map Prod.fst) op := by
  cases op with
  | append traceID rs =>
    simp only [applyOp, liveStep]
    cases hfind : GoMap.find st.content (hexString traceID) with
    | none =>
      have hmem : hexString traceID ∉ st.content.map Prod.fst := by
        rw [← GoMap.find_isSome_iff_mem]
        simp [hfind]
      rw [if_neg hmem]
      unfold memoryStorage.createOrAppend
      simp only [hfind]
      rw [GoMap.map_fst_set, if_pos (by rw [GoMap.find_set_self]; rfl),
        GoMap.map_fst_set, if_neg (by simp [hfind])]
    | some old =>
      have hmem : hexString traceID ∈ st.content.map Prod.fst := by
        rw [← GoMap.find_isSome_iff_mem]
        simp [hfind]
      rw [if_pos hmem]
      unfold memoryStorage.createOrAppend
      simp only [hfind]
      rw [GoMap.map_fst_set, if_pos (by simp [hfind])]
  | get _ => rfl
  | count => rfl
  | delete traceID =>
    simp only [applyOp, liveStep]
    exact GoMap.map_fst_erase _ _

theorem runFrom_keys (ops : List (Op β)) (st : memoryStorage β) :
    (runFrom st ops).content.map Prod.fst = ops.foldl liveStep (st.content.map Prod.fst) := by
  induction ops generalizing st with
  | nil => rfl
  | cons op rest ih =>
    rw [runFrom_cons, List.foldl_cons, ih, applyOp_keys]

theorem asld_snoc (ops : List (Op β)) (op : Op β) (k : GoStr) :
    appendedSinceLastDelete (ops ++ [op]) k
      = if op.isDeleteOf k then false
        else (op.isAppendTo k || appendedSinceLastDelete ops k) := by
  unfold appendedSinceLastDelete
  rw [List.reverse_append]
  by_cases hd : op.isDeleteOf k
  · simp [List.takeWhile_cons, hd]
  · simp [List.takeWhile_cons, hd]

theorem mem_liveFold (ops : List (Op β)) (k : GoStr) :
    k ∈ ops.foldl liveStep ([] : List GoStr) ↔ appendedSinceLastDelete ops k = true := by
  induction ops using List.reverseRecOn with
  | nil => simp [appendedSinceLastDelete]
  | append_singleton ops op ih =>
    rw [List.foldl_append, asld_snoc]
    cases op with
    | append traceID rs =>
      simp only [List.foldl_cons, List.foldl_nil, liveStep]
      by_cases hkey : hexString traceID = k
      · subst hkey
        by_cases hmem : hexString traceID ∈ ops.foldl liveStep []
        · simp [hmem, Op.isDeleteOf, Op.isAppendTo]
        · simp [hmem, Op.isDeleteOf, Op.isAppendTo]
      · have hne : ¬k = hexString traceID := fun hh => hkey hh.symm
        by_cases hmem : hexString traceID ∈ ops.foldl liveStep []
        · simp [hmem, Op.isDeleteOf, Op.isAppendTo, hkey, hne, ih]
        · simp [hmem, Op.isDeleteOf, Op.isAppendTo, hkey, hne, ih]
    | delete traceID =>
      simp only [List.foldl_cons, List.foldl_nil, liveStep]
      by_cases hkey : hexString traceID = k
      · subst hkey
        simp [Op.isDeleteOf, List.mem_filter]
      · have hne : k ≠ hexString traceID := fun hh => hkey hh.symm
        simp [Op.isDeleteOf, Op.isAppendTo, hkey, hne, List.mem_filter, ih]
    | get traceID =>
      simp [Op.isDeleteOf, Op.isAppendTo, liveStep, ih]
    | count =>
      simp [Op.isDeleteOf, Op.isAppendTo, liveStep, ih]

theorem nodup_liveFold (ops : List (Op β)) :
    ∀ l : List GoStr, l.Nodup → (ops.foldl liveStep l).Nodup := by
  induction ops with
  | nil => intro l hl; exact hl
  | cons op rest ih =>
    intro l hl
    rw [List.foldl_cons]
    refine ih _ ?_
    cases op with
    | append traceID rs =>
      simp only [liveStep]
      by_cases hmem : hexString traceID ∈ l
      · rw [if_pos hmem]; exact hl
      · rw [if_neg hmem]
        simp [List.nodup_append, hl, hmem]
    | delete traceID => exact List.Nodup.filter _ hl
    | get _ => exact hl
    | count => exact hl

theorem mem_appendKeys_of_append {ops : List (Op β)} {traceID : TraceID} {rs : β}
    (h : Op.append traceID rs ∈ ops) : hexString traceID ∈ appendKeys ops := by
  induction ops with
  | nil => simp at h
  | cons op rest ih =>
    rcases List.mem_cons.mp h with heq | hmem
    · rw [← heq]
      simp [appendKeys]
    · cases op with
      | append tid' rs' =>
        simp only [appendKeys, Finset.mem_insert]
        exact Or.inr (ih hmem)
      | get _ => simpa [appendKeys] using ih hmem
      | delete _ => simpa [appendKeys] using ih hmem
      | count => simpa [appendKeys] using ih hmem

theorem asld_mem_appendKeys {ops : List (Op β)} {k : GoStr}
    (h : appendedSinceLastDelete ops k = true) : k ∈ appendKeys ops := by
  unfold appendedSinceLastDelete at h
  obtain ⟨op, hop, happ⟩ := List.any_eq_true.mp h
  have hmem : op ∈ ops :=
    List.mem_reverse.mp ((List.takeWhile_sublist _).subset hop)
  cases op with
  | append traceID rs =>
    have hkk : hexString traceID = k := by simpa [Op.isAppendTo] using happ
    rw [← hkk]
    exact mem_appendKeys_of_append hmem
  | get _ => simp [Op.isAppendTo] at happ
  | delete _ => simp [Op.isAppendTo] at happ
  | count => simp [Op.isAppendTo] at happ

/-- C4: in every state reachable by a sequence of `append`, `get`, `delete`
and `count` calls from a fresh store, `count()` equals the number of distinct
trace keys with at least one `append` since the last `delete` of that key. -/
theorem count_eq_keys_appended_since_delete (ops : List (Op β)) :
    (runOps ops).count
      = ((appendKeys ops).filter fun k => appendedSinceLastDelete ops k = true).card := by
  have hkeys : (runOps ops).content.map Prod.fst = ops.foldl liveStep [] := by
    simpa using runFrom_keys ops (newMemoryStorage β)
  have hnodup : (ops.foldl liveStep ([] : List GoStr)).Nodup :=
    nodup_liveFold ops [] List.nodup_nil
  have hlen : (runOps ops).count = (ops.foldl liveStep ([] : List GoStr)).length := by
    unfold memoryStorage.count
    rw [← List.length_map (runOps ops).content Prod.fst, hkeys]
  rw [hlen, ← List.toFinset_card_of_nodup hnodup]
  congr 1
  ext k
  simp only [List.mem_toFinset, Finset.mem_filter]
  rw [mem_liveFold]
  exact ⟨fun h => ⟨asld_mem_appendKeys h, h⟩, fun h => h.2⟩

/-- The scenario of the specification, checked executably: two appends to
trace `aa11`, one to trace `bb22`, then the count, get and delete results. -/
example :
    (runOps [Op.append [(170 : Fin 256), (17 : Fin 256)] (1 : Nat),
             Op.append [(170 : Fin 256), (17 : Fin 256)] 2,
             Op.append [(187 : Fin 256), (34 : Fin 256)] 3]).count = 2 := by decide

/-!
## Non-empty entries (claim C10) and key isolation (claim C8)
-/

theorem GoMap.find_none_key_ne {α : Type} {c : List (GoStr × α)} {k : GoStr}
    (h : GoMap.find c k = none) : ∀ kv ∈ c, kv.1 ≠ k := by
  induction c with
  | nil => intro kv hkv; simp at hkv
  | cons kv₀ rest ih =>
    intro kv hkv
    by_cases hk : kv₀.1 = k
    · simp [GoMap.find, hk] at h
    · simp only [GoMap.find, if_neg hk] at h
      rcases List.mem_cons.mp hkv with rfl | hmem
      · exact hk
      · exact ih h kv hmem

theorem GoMap.mem_set_strong {α : Type} {c : List (GoStr × α)} {k : GoStr} {v : α}
    {kv' : GoStr × α} (h : kv' ∈ GoMap.set c k v) :
    (kv' ∈ c ∧ kv'.1 ≠ k) ∨ kv' = (k, v) := by
  unfold GoMap.set at h
  by_cases hs : (GoMap.find c k).isSome
  · rw [if_pos hs] at h
    obtain ⟨kv, hmem, hupd⟩ := List.mem_map.mp h
    by_cases hk : kv.1 = k
    · right; rw [← hupd]; simp [hk]
    · left
      rw [← hupd]
      simp only [if_neg hk]
      exact ⟨hmem, hk⟩
  · rw [if_neg hs] at h
    rcases List.mem_append.mp h with h1 | h1
    · exact Or.inl ⟨h1, GoMap.find_none_key_ne (Option.not_isSome_iff_eq_none.mp hs) kv' h1⟩
    · exact Or.inr (by simpa using h1)

/-- C10: in every reachable state, every key present in the map holds a
non-empty sequence (an `append` always follows entry creation), and hence
`get` on a present key never returns the empty sequence. -/
theorem present_entries_nonempty (ops : List (Op β)) :
    (∀ kv ∈ (runOps ops).content, kv.2 ≠ [])
    ∧ ∀ (traceID : TraceID) (l : List β), ((runOps ops).get traceID).1 = some l → l ≠ [] := by
  constructor
  · have hgen : ∀ (ops₀ : List (Op β)) (st : memoryStorage β),
        (∀ kv ∈ st.content, kv.2 ≠ []) →
        ∀ kv ∈ (runFrom st ops₀).content, kv.2 ≠ [] := by
      intro ops₀
      induction ops₀ with
      | nil => intro st h; exact h
      | cons op rest ih =>
        intro st h
        rw [runFrom_cons]
        refine ih _ ?_
        cases op with
        | append traceID rs =>
          simp only [applyOp]
          unfold memoryStorage.createOrAppend
          cases hfind : GoMap.find st.content (hexString traceID) with
          | none =>
            simp only [hfind]
            intro kv hkv
            rcases GoMap.mem_set_strong hkv with ⟨hkv1, hne⟩ | hkv1
            · rcases GoMap.mem_set_strong hkv1 with ⟨hkv2, _⟩ | hkv2
              · exact h kv hkv2
              · exact absurd (by rw [hkv2]) hne
            · rw [hkv1]
              simp
          | some old =>
            simp only [hfind]
            intro kv hkv
            rcases GoMap.mem_set_strong hkv with ⟨hkv1, _⟩ | hkv1
            · exact h kv hkv1
            · rw [hkv1]
              simp
        | get _ => exact h
        | count => exact h
        | delete traceID =>
          simp only [applyOp]
          intro kv hkv
          exact h kv (GoMap.mem_of_mem_erase hkv)
    exact hgen ops (newMemoryStorage β) (by intro kv hkv; simp [newMemoryStorage] at hkv)
  · intro traceID l hl
    unfold memoryStorage.get at hl
    cases hfind : GoMap.find (runOps ops).content (hexString traceID) with
    | none => rw [hfind] at hl; exact absurd hl (by simp)
    | some rss =>
      rw [hfind] at hl
      cases rss with
      | nil => exact absurd hl (by simp [copyAll])
      | cons r rest =>
        simp only [copyAll] at hl
        have : r :: rest = l := by injection hl
        rw [← this]
        simp

/-- Witness for C10 after one append to trace `aa`. -/
theorem present_entries_nonempty_witness :
    (([97, 97], [1]) : GoStr × List Nat).2 ≠ [] ∧ ([1] : List Nat) ≠ [] := by
  have h := present_entries_nonempty (β := Nat) [Op.append [(170 : Fin 256)] 1]
  exact ⟨h.1 ([97, 97], [1]) (by decide), h.2 [(170 : Fin 256)] [1] (by decide)⟩

/-- C8: the map key is a total, collision-free function of the trace
identifier — hex keys are equal exactly when the identifiers are
byte-for-byte equal — so `append` and `delete` on one trace identifier never
touch the entry of a different identifier. -/
theorem hex_key_injective_isolating :
    (∀ t1 t2 : TraceID, hexString t1 = hexString t2 ↔ t1 = t2)
    ∧ ∀ (γ : Type) (st : memoryStorage γ) (t1 t2 : TraceID) (rs : γ), t1 ≠ t2 →
        GoMap.find ((st.createOrAppend t1 rs).1).content (hexString t2)
          = GoMap.find st.content (hexString t2)
        ∧ GoMap.find ((st.delete t1).2.1).content (hexString t2)
          = GoMap.find st.content (hexString t2) := by
  constructor
  · intro t1 t2
    exact ⟨hexString_inj t1 t2, fun h => by rw [h]⟩
  · intro γ st t1 t2 rs hne
    have hkey : hexString t2 ≠ hexString t1 := fun hh => hne (hexString_inj t2 t1 hh).symm
    exact ⟨find_createOrAppend_ne st t1 rs _ hkey, find_delete_ne st t1 _ hkey⟩

/-- Witness for C8: appending to or deleting trace `aa` leaves the entry of
trace `bb` untouched. -/
theorem hex_key_injective_isolating_witness :
    GoMap.find (((runOps [Op.append [(187 : Fin 256)] (7 : Nat)]).createOrAppend
          [(170 : Fin 256)] 5).1).content (hexString [(187 : Fin 256)])
      = GoMap.find (runOps [Op.append [(187 : Fin 256)] (7 : Nat)]).content
          (hexString [(187 : Fin 256)])
    ∧ GoMap.find (((runOps [Op.append [(187 : Fin 256)] (7 : Nat)]).delete
          [(170 : Fin 256)]).2.1).content (hexString [(187 : Fin 256)])
      = GoMap.find (runOps [Op.append [(187 : Fin 256)] (7 : Nat)]).content
          (hexString [(187 : Fin 256)]) :=
  hex_key_injective_isolating.2 Nat (runOps [Op.append [(187 : Fin 256)] (7 : Nat)])
    [(170 : Fin 256)] [(187 : Fin 256)] 5 (by decide)

/-!
## The metrics loop after shutdown (claim C7)
-/

theorem stopped_run_single (states : Nat → memoryStorage β) (fuel t : Nat)
    (h : (states t).stopped = true) :
    periodicMetricsRun states (fuel + 1) t = [(t, (states t).count)] := by
  simp [periodicMetricsRun, h]

theorem mem_stopped_run (states : Nat → memoryStorage β) (fuel t : Nat)
    (h : (states t).stopped = true) :
    ∀ p ∈ periodicMetricsRun states fuel t, p = (t, (states t).count) := by
  intro p hp
  cases fuel with
  | zero => simp [periodicMetricsRun] at hp
  | succ f =>
    rw [stopped_run_single states f t h] at hp
    simpa using hp

theorem run_times_bounded (states : Nat → memoryStorage β) (s I : Nat)
    (hstop : ∀ u, s ≤ u → (states u).stopped = true)
    (hI : ∀ u, (states u).metricsCollectionInterval = I)
    (hI1 : 1 ≤ I) :
    ∀ fuel t, t ≤ s → ∀ p ∈ periodicMetricsRun states fuel t, p.1 < s + I := by
  intro fuel
  induction fuel with
  | zero =>
    intro t ht p hp
    simp [periodicMetricsRun] at hp
  | succ f ih =>
    intro t ht p hp
    by_cases hst : (states t).stopped = true
    · have := mem_stopped_run states (f + 1) t hst p hp
      rw [this]
      show t < s + I
      omega
    · simp only [periodicMetricsRun] at hp
      rw [if_neg hst] at hp
      rcases List.mem_cons.mp hp with rfl | hp'
      · show t < s + I
        omega
      · rw [hI t] at hp'
        have hts : t < s := by
          rcases Nat.lt_or_ge t s with h1 | h1
          · exact h1
          · exact absurd (hstop t h1) hst
        rcases le_or_lt (t + I) s with hc | hc
        · exact ih (t + I) hc p hp'
        · have hstop' : (states (t + I)).stopped = true := hstop _ (by omega)
          have := mem_stopped_run states f (t + I) hstop' p hp'
          rw [this]
          show t + I < s + I
          omega

/-- C7: once the stopped flag holds from time `s` on (as `shutdown` makes it
hold, irreversibly), every sample the self-rescheduling loop emits lies
before the interval boundary `s + I`; and an activation that observes the
flag emits its current sample and terminates permanently — there is no
restart path. -/
theorem shutdown_halts_metrics_loop (states : Nat → memoryStorage β) (s I fuel t : Nat)
    (p : Nat × Nat)
    (hstop : ∀ u, s ≤ u → (states u).stopped = true)
    (hI : ∀ u, (states u).metricsCollectionInterval = I)
    (hI1 : 1 ≤ I) (ht : t ≤ s)
    (hp : p ∈ periodicMetricsRun states fuel t) :
    p.1 < s + I
    ∧ periodicMetricsRun states (fuel + 1) s = [(s, (states s).count)] :=
  ⟨run_times_bounded states s I hstop hI hI1 fuel t ht p hp,
   stopped_run_single states fuel s (hstop s Nat.le.refl)⟩

/-- Witness for C7: a schedule stopped from time 2 on, interval 1, loop
started at time 0 with fuel 4; the sample at time 1 lies below `2 + 1` and
the activation at time 2 emits one final sample. -/
theorem shutdown_halts_metrics_loop_witness :
    ((1, 0) : Nat × Nat).1 < 2 + 1
    ∧ periodicMetricsRun
        (fun u => ({ content := [], stopped := decide (2 ≤ u),
                     metricsCollectionInterval := 1 } : memoryStorage Nat)) (4 + 1) 2
      = [(2, 0)] := by
  have h := shutdown_halts_metrics_loop
    (fun u => ({ content := [], stopped := decide (2 ≤ u),
                 metricsCollectionInterval := 1 } : memoryStorage Nat))
    2 1 4 0 (1, 0)
    (fun u hu => decide_eq_true hu) (fun u => rfl) (by decide) (by decide) (by decide)
  exact ⟨h.1, h.2.trans rfl⟩

/-!
## Heap lemmas and the address-level claims (C9, C5)
-/

theorem Heap.length_write (h : Heap β) (a : Nat) (v : β) :
    (h.write a v).cells.length = h.cells.length := by
  simp [Heap.write]

theorem Heap.read_write_ne [Inhabited β] (h : Heap β) (a b : Nat) (v : β) (hne : b ≠ a) :
    (h.write a v).read b = h.read b := by
  simp [Heap.read, Heap.write, List.getElem?_set_ne (fun hh => hne hh.symm)]

theorem Heap.read_grow [Inhabited β] (h : Heap β) (ext : List β) {a : Nat}
    (ha : a < h.cells.length) :
    (⟨h.cells ++ ext⟩ : Heap β).read a = h.read a := by
  simp [Heap.read, List.getElem?_append, ha]

theorem Heap.read_appended [Inhabited β] :
    ∀ (ext : List β) (h : Heap β),
      (List.range' h.cells.length ext.length).map (Heap.read ⟨h.cells ++ ext⟩) = ext := by
  intro ext
  induction ext with
  | nil => intro h; simp
  | cons e rest ih =>
    intro h
    rw [List.length_cons, List.range'_succ, List.map_cons]
    have h1 : (⟨h.cells ++ e :: rest⟩ : Heap β).read h.cells.length = e := by
      simp [Heap.read, List.getElem?_append_right (Nat.le_refl _)]
    have hlist : h.cells ++ e :: rest = (⟨h.cells ++ [e]⟩ : Heap β).cells ++ rest := by simp
    have h3 := ih ⟨h.cells ++ [e]⟩
    have h4 : (⟨h.cells ++ [e]⟩ : Heap β).cells.length = h.cells.length + 1 := by simp
    rw [h4] at h3
    rw [h1]
    congr 1
    rw [show (⟨h.cells ++ e :: rest⟩ : Heap β) = ⟨(⟨h.cells ++ [e]⟩ : Heap β).cells ++ rest⟩ from
      congrArg Heap.mk hlist]
    exact h3

theorem copyOut_spec [Inhabited β] :
    ∀ (as : List Nat) (h : Heap β), (∀ a ∈ as, a < h.cells.length) →
      copyOut as h = (List.range' h.cells.length as.length, ⟨h.cells ++ as.map h.read⟩) := by
  intro as
  induction as with
  | nil =>
    intro h _
    simp [copyOut, List.range']
  | cons a rest ih =>
    intro h hv
    have hvr : ∀ a' ∈ rest, a' < (⟨h.cells ++ [h.read a]⟩ : Heap β).cells.length := by
      intro a' ha'
      have := hv a' (List.mem_cons_of_mem _ ha')
      simp only [List.length_append, List.length_cons, List.length_nil]
      omega
    have hreads : rest.map (⟨h.cells ++ [h.read a]⟩ : Heap β).read = rest.map h.read :=
      List.map_congr_left fun a' ha' =>
        Heap.read_grow h [h.read a] (hv a' (List.mem_cons_of_mem _ ha'))
    simp only [copyOut, Heap.alloc]
    rw [ih ⟨h.cells ++ [h.read a]⟩ hvr]
    refine Prod.ext ?_ ?_
    · show h.cells.length :: List.range' (h.cells ++ [h.read a]).length rest.length
        = List.range' h.cells.length (a :: rest).length
      rw [List.length_cons, List.range'_succ]
      have hlen : (h.cells ++ [h.read a]).length = h.cells.length + 1 := by simp
      rw [hlen]
    · show (⟨(h.cells ++ [h.read a]) ++ rest.map (⟨h.cells ++ [h.read a]⟩ : Heap β).read⟩ : Heap β)
        = ⟨h.cells ++ (a :: rest).map h.read⟩
      rw [hreads, List.map_cons, List.append_assoc, List.singleton_append]

theorem copyOut_grow [Inhabited β] : ∀ (as : List Nat) (h : Heap β),
    ∃ ext : List β, (copyOut as h).2.cells = h.cells ++ ext := by
  intro as
  induction as with
  | nil => intro h; exact ⟨[], by simp [copyOut]⟩
  | cons a rest ih =>
    intro h
    obtain ⟨ext, hext⟩ := ih ⟨h.cells ++ [h.read a]⟩
    refine ⟨[h.read a] ++ ext, ?_⟩
    have hstep : (copyOut (a :: rest) h).2 = (copyOut rest ⟨h.cells ++ [h.read a]⟩).2 := rfl
    rw [hstep, hext]
    simp

/-- The result of the heap-level `get`, with the pair destructuring spelled
out through projections. -/
theorem getH_eq [Inhabited β] (st : memoryStorageH) (h : Heap β) (traceID : TraceID) :
    st.get h traceID
      = match GoMap.find st.content (hexString traceID) with
        | none => (none, st, h)
        | some rss => (copyAll (copyOut rss h).1, st, (copyOut rss h).2) := by
  unfold memoryStorageH.get
  cases GoMap.find st.content (hexString traceID) with
  | none => rfl
  | some rss => rfl

/-- The result of the heap-level `delete`, through projections. -/
theorem deleteH_eq [Inhabited β] (st : memoryStorageH) (h : Heap β) (traceID : TraceID) :
    st.delete h traceID
      = ((copyOut ((GoMap.find st.content (hexString traceID)).getD []) h).1,
         { st with content := GoMap.erase st.content (hexString traceID) },
         (copyOut ((GoMap.find st.content (hexString traceID)).getD []) h).2) := by
  unfold memoryStorageH.delete
  rfl

theorem validStore_mono {st : memoryStorageH} {h h' : Heap β}
    (hlen : h.cells.length ≤ h'.cells.length) (hv : validStore st h) : validStore st h' := by
  intro kv hkv a ha
  exact lt_of_lt_of_le (hv kv hkv a ha) hlen

theorem valid_entry {st : memoryStorageH} {h : Heap β} (hv : validStore st h)
    {k : GoStr} {rss : List Nat} (hfind : GoMap.find st.content k = some rss) :
    ∀ a ∈ rss, a < h.cells.length :=
  hv (k, rss) (GoMap.find_some_mem hfind)

/-- C9: `get` and `count` are pure reads — `get` leaves the whole store state
(the map, the stopped flag and the sampling interval, hence also `count`)
unchanged, and only extends the heap with the freshly allocated copies. -/
theorem get_and_count_pure_reads [Inhabited β] (st : memoryStorageH) (h : Heap β)
    (traceID : TraceID) :
    ((st.get h traceID).2.1).content = st.content
    ∧ ((st.get h traceID).2.1).stopped = st.stopped
    ∧ ((st.get h traceID).2.1).metricsCollectionInterval = st.metricsCollectionInterval
    ∧ ((st.get h traceID).2.1).count = st.count
    ∧ ∃ ext : List β, ((st.get h traceID).2.2).cells = h.cells ++ ext := by
  rw [getH_eq]
  cases hfind : GoMap.find st.content (hexString traceID) with
  | none => exact ⟨rfl, rfl, rfl, rfl, ⟨[], by simp⟩⟩
  | some rss =>
    exact ⟨rfl, rfl, rfl, rfl, copyOut_grow (β := β) rss h⟩

theorem mem_storedAddrs {st : memoryStorageH} {kv : GoStr × List Nat} {b : Nat}
    (hkv : kv ∈ st.content) (hb : b ∈ kv.2) : b ∈ storedAddrs st := by
  unfold storedAddrs
  exact List.mem_flatMap.mpr ⟨kv, hkv, hb⟩

theorem map_read_write_ne [Inhabited β] (h : Heap β) (a : Nat) (v : β) (as : List Nat)
    (hne : ∀ b ∈ as, b ≠ a) :
    as.map ((h.write a v).read) = as.map h.read :=
  List.map_congr_left fun b hb => Heap.read_write_ne h a b v (hne b hb)

/-- What a `get` caller observes on an absent key: `none`. -/
theorem getValuesObs_none [Inhabited β] (st : memoryStorageH) (h : Heap β) (traceID : TraceID)
    (hfind : GoMap.find st.content (hexString traceID) = none) :
    getValuesObs st h traceID = none := by
  unfold getValuesObs
  rw [getH_eq, hfind]

/-- What a `get` caller observes on a present entry: the stored batch values
(with the Go `nil`-slice result when the entry is empty). -/
theorem getValuesObs_some [Inhabited β] (st : memoryStorageH) (h : Heap β) (traceID : TraceID)
    (rss : List Nat) (hfind : GoMap.find st.content (hexString traceID) = some rss)
    (hval : ∀ a ∈ rss, a < h.cells.length) :
    getValuesObs st h traceID = copyAll (rss.map h.read) := by
  unfold getValuesObs
  rw [getH_eq, hfind]
  show (match ((copyAll (copyOut rss h).1, st, (copyOut rss h).2) :
      Option (List Nat) × memoryStorageH × Heap β) with
    | (none, _, _) => none
    | (some as, _, h₁) => some (as.map h₁.read)) = copyAll (rss.map h.read)
  rw [copyOut_spec rss h hval]
  cases rss with
  | nil => rfl
  | cons r rest =>
    have hra := Heap.read_appended ((r :: rest).map h.read) h
    rw [List.length_map] at hra
    show some ((List.range' h.cells.length (r :: rest).length).map
      (Heap.read ⟨h.cells ++ (r :: rest).map h.read⟩)) = copyAll ((r :: rest).map h.read)
    rw [hra, List.map_cons]
    rfl

/-- What a `delete` caller observes: the batch values of the stored entry
(empty when the key is absent). -/
theorem deleteValuesObs_eq [Inhabited β] (st : memoryStorageH) (h : Heap β) (traceID : TraceID)
    (hv : validStore st h) :
    deleteValuesObs st h traceID
      = ((GoMap.find st.content (hexString traceID)).getD []).map h.read := by
  unfold deleteValuesObs
  rw [deleteH_eq]
  cases hfind : GoMap.find st.content (hexString traceID) with
  | none => rfl
  | some rss =>
    have hval := valid_entry hv hfind
    show ((copyOut ((some rss).getD []) h).1).map ((copyOut ((some rss).getD []) h).2).read
      = ((some rss).getD []).map h.read
    rw [show ((some rss).getD [] : List Nat) = rss from rfl, copyOut_spec rss h hval]
    have hra := Heap.read_appended (rss.map h.read) h
    rw [List.length_map] at hra
    exact hra

theorem createOrAppendH_heap [Inhabited β] (st : memoryStorageH) (h : Heap β)
    (traceID : TraceID) (rs : Nat) :
    (st.createOrAppend h traceID rs).2.1 = ⟨h.cells ++ [h.read rs]⟩ := by
  unfold memoryStorageH.createOrAppend
  cases GoMap.find st.content (hexString traceID) with
  | none => rfl
  | some old => rfl

/-- Every address stored after `createOrAppend` was either stored before or is
the address of the fresh copy allocated by the call. -/
theorem createOrAppendH_bound [Inhabited β] (st : memoryStorageH) (h : Heap β)
    (traceID : TraceID) (rs : Nat) :
    ∀ kv ∈ ((st.createOrAppend h traceID rs).1).content, ∀ b ∈ kv.2,
      b ∈ storedAddrs st ∨ b = h.cells.length := by
  intro kv hkv b hb
  unfold memoryStorageH.createOrAppend at hkv
  cases hfind : GoMap.find st.content (hexString traceID) with
  | none =>
    simp only [hfind, Heap.alloc] at hkv
    rcases GoMap.mem_set hkv with hkv1 | hkv1
    · rcases GoMap.mem_set hkv1 with hkv2 | hkv2
      · exact Or.inl (mem_storedAddrs hkv2 hb)
      · rw [hkv2] at hb
        simp at hb
    · rw [hkv1] at hb
      rw [GoMap.find_set_self] at hb
      simp at hb
      exact Or.inr hb
  | some old =>
    simp only [hfind, Heap.alloc] at hkv
    rcases GoMap.mem_set hkv with hkv1 | hkv1
    · exact Or.inl (mem_storedAddrs hkv1 hb)
    · rw [hkv1] at hb
      simp only [Option.getD_some] at hb
      rcases List.mem_append.mp hb with hbo | hbl
      · exact Or.inl (mem_storedAddrs (GoMap.find_some_mem hfind) hbo)
      · simp at hbl
        exact Or.inr hbl

/-- C5: the sequences returned by `get` and `delete` are independent deep
copies — mutating a batch returned by `get` changes neither what a subsequent
`get` nor what a subsequent `delete` on the same key observes, and mutating
the caller's batch after `append` does not change any stored entry. -/
theorem deep_copy_isolation [Inhabited β] (st : memoryStorageH) (h : Heap β)
    (traceID : TraceID) (hv : validStore st h) :
    (∀ res st' h' as a v, st.get h traceID = (res, st', h') → res = some as → a ∈ as →
        getValuesObs st' (h'.write a v) traceID = getValuesObs st' h' traceID
        ∧ deleteValuesObs st' (h'.write a v) traceID = deleteValuesObs st' h' traceID)
    ∧ (∀ st' h' e rs v k, rs < h.cells.length → rs ∉ storedAddrs st →
        st.createOrAppend h traceID rs = (st', h', e) →
        entryValues st' (h'.write rs v) k = entryValues st' h' k) := by
  constructor
  · intro res st' h' as a v hget hres ha
    rw [getH_eq] at hget
    cases hfind : GoMap.find st.content (hexString traceID) with
    | none =>
      rw [hfind] at hget
      have hn : none = res := congrArg Prod.fst hget
      rw [← hn] at hres
      exact absurd hres (by simp)
    | some rss =>
      rw [hfind] at hget
      have hval := valid_entry hv hfind
      have hget2 : ((copyAll (copyOut rss h).1, st, (copyOut rss h).2) :
          Option (List Nat) × memoryStorageH × Heap β) = (res, st', h') := hget
      rw [copyOut_spec rss h hval] at hget2
      have hst' : st = st' := congrArg (fun p => p.2.1) hget2
      have hh' : (⟨h.cells ++ rss.map h.read⟩ : Heap β) = h' :=
        congrArg (fun p => p.2.2) hget2
      have hres2 : copyAll (List.range' h.cells.length rss.length) = res :=
        congrArg Prod.fst hget2
      have has : a ∈ List.range' h.cells.length rss.length := by
        rw [hres] at hres2
        cases hrr : List.range' h.cells.length rss.length with
        | nil =>
          rw [hrr] at hres2
          exact absurd hres2 (by simp [copyAll])
        | cons x xs =>
          rw [hrr] at hres2
          have hsome : some (x :: xs) = some as := hres2
          have hxs : x :: xs = as := by injection hsome
          rw [hxs]
          exact ha
      have halen : h.cells.length ≤ a := by
        obtain ⟨i, hi, hia⟩ := List.mem_range'.mp has
        omega
      have hh'len : h.cells.length ≤ h'.cells.length := by
        rw [← hh']
        simp
      have hvst' : validStore st' h' := by
        rw [← hst']
        exact validStore_mono hh'len hv
      have hwlen : h'.cells.length ≤ (h'.write a v).cells.length := by
        rw [Heap.length_write]
      have hvw : validStore st' (h'.write a v) := validStore_mono hwlen hvst'
      have hfind' : GoMap.find st'.content (hexString traceID) = some rss := by
        rw [← hst']
        exact hfind
      have hvalw : ∀ b ∈ rss, b < (h'.write a v).cells.length := by
        intro b hb
        have h3 := hval b hb
        rw [Heap.length_write]
        omega
      have hval' : ∀ b ∈ rss, b < h'.cells.length :=
        fun b hb => lt_of_lt_of_le (hval b hb) hh'len
      have hmap : rss.map ((h'.write a v).read) = rss.map h'.read := by
        refine map_read_write_ne h' a v rss ?_
        intro b hb h4
        have h5 := hval b hb
        omega
      constructor
      · rw [getValuesObs_some st' (h'.write a v) traceID rss hfind' hvalw,
          getValuesObs_some st' h' traceID rss hfind' hval', hmap]
      · rw [deleteValuesObs_eq st' (h'.write a v) traceID hvw,
          deleteValuesObs_eq st' h' traceID hvst', hfind']
        show rss.map ((h'.write a v).read) = rss.map h'.read
        exact hmap
  · intro st' h' e rs v k hrs hnotin happ
    have h1 : (st.createOrAppend h traceID rs).1 = st' := congrArg Prod.fst happ
    have h2 : (st.createOrAppend h traceID rs).2.1 = h' := congrArg (fun p => p.2.1) happ
    rw [← h1, ← h2, createOrAppendH_heap]
    unfold entryValues
    cases hfind' : GoMap.find ((st.createOrAppend h traceID rs).1).content k with
    | none => rfl
    | some as' =>
      have hbound := createOrAppendH_bound st h traceID rs (k, as')
        (GoMap.find_some_mem hfind')
      have hne : ∀ b ∈ as', b ≠ rs := by
        intro b hb heq
        rcases hbound b hb with hmem | hlen
        · rw [heq] at hmem
          exact hnotin hmem
        · omega
      simp only [Option.map_some']
      exact congrArg some (map_read_write_ne _ rs v as' hne)

/-- Witness for C5 on a concrete store holding trace `aa` with one stored
batch: mutating the copy returned by `get` (heap cell 2) changes no later
observation, and mutating the caller's batch (heap cell 1) after appending it
changes no stored entry. -/
theorem deep_copy_isolation_witness :
    (getValuesObs ({ content := [([97, 97], [0])], stopped := false, metricsCollectionInterval := 1 } : memoryStorageH)
        ((⟨[42, 43, 42]⟩ : Heap Nat).write 2 99) [(170 : Fin 256)]
      = getValuesObs ({ content := [([97, 97], [0])], stopped := false, metricsCollectionInterval := 1 } : memoryStorageH)
        (⟨[42, 43, 42]⟩ : Heap Nat) [(170 : Fin 256)])
    ∧ (deleteValuesObs ({ content := [([97, 97], [0])], stopped := false, metricsCollectionInterval := 1 } : memoryStorageH)
        ((⟨[42, 43, 42]⟩ : Heap Nat).write 2 99) [(170 : Fin 256)]
      = deleteValuesObs ({ content := [([97, 97], [0])], stopped := false, metricsCollectionInterval := 1 } : memoryStorageH)
        (⟨[42, 43, 42]⟩ : Heap Nat) [(170 : Fin 256)])
    ∧ (entryValues ({ content := [([97, 97], [0, 2])], stopped := false, metricsCollectionInterval := 1 } : memoryStorageH)
        ((⟨[42, 43, 43]⟩ : Heap Nat).write 1 5) [97, 97]
      = entryValues ({ content := [([97, 97], [0, 2])], stopped := false, metricsCollectionInterval := 1 } : memoryStorageH)
        (⟨[42, 43, 43]⟩ : Heap Nat) [97, 97]) := by
  have hv : validStore ({ content := [([97, 97], [0])], stopped := false, metricsCollectionInterval := 1 } : memoryStorageH)
      (⟨[42, 43]⟩ : Heap Nat) := by
    unfold validStore
    decide
  have hiso := deep_copy_isolation
    ({ content := [([97, 97], [0])], stopped := false, metricsCollectionInterval := 1 } : memoryStorageH)
    (⟨[42, 43]⟩ : Heap Nat) [(170 : Fin 256)] hv
  have hA := hiso.1 (some [2])
    ({ content := [([97, 97], [0])], stopped := false, metricsCollectionInterval := 1 } : memoryStorageH)
    (⟨[42, 43, 42]⟩ : Heap Nat) [2] 2 99 rfl rfl (by decide)
  have hB := hiso.2
    ({ content := [([97, 97], [0, 2])], stopped := false, metricsCollectionInterval := 1 } : memoryStorageH)
    (⟨[42, 43, 43]⟩ : Heap Nat) none 1 5 [97, 97] (by decide) (by decide) rfl
  exact ⟨hA.1, hA.2, hB⟩
